import Mathlib

/-!
Shallow embedding of `filter-with-state` (src/src/lib.rs), a Rust library
providing two stateful iterator adaptors, `FilterWith` and `FilterMapWith`,
attached to any iterator by the extension methods `filter_with` and
`filter_map_with`.

Modelling conventions:
  * A concrete source iterator is modelled as the `List` of items it will
    yield, pulled from the front; an arbitrary (possibly non-fused,
    possibly infinite) source iterator is modelled as a step function
    `step : σ → Option α × σ` mirroring Rust's
    `fn next(&mut self) -> Option<Item>` (the state is always updated,
    even when `None` is returned).
  * A stateful closure `P: FnMut(&mut S, ...) -> R` is modelled as a pure
    function `S → ... → R × S`: the mutable borrow of the state becomes
    explicit state passing.
  * `Option` models Rust's `Option`.
-/

/-- The struct `FilterWith<I, P, S>` of src/src/lib.rs, with the source
iterator `I` modelled as the list of items it has yet to yield and the
`FnMut(&mut S, &I::Item) -> bool` predicate modelled as a pure function
returning the boolean together with the updated state. -/
structure FilterWith (α S : Type) where
  iter : List α
  predicate : S → α → Bool × S
  state : S

/-- The struct `FilterMapWith<I, P, S>` of src/src/lib.rs, with the source
iterator modelled as a list and the `FnMut(&mut S, I::Item) -> Option<B>`
function modelled as a pure function returning the optional mapped value
together with the updated state. -/
structure FilterMapWith (α β S : Type) where
  iter : List α
  predicate : S → α → Option β × S
  state : S

/-- The extension method `FilterWithExt::filter_with`: moves the source,
the initial state and the predicate into a `FilterWith` adaptor. -/
def filter_with (iter : List α) (state : S) (predicate : S → α → Bool × S) :
    FilterWith α S :=
  ⟨iter, predicate, state⟩

/-- The extension method `FilterWithExt::filter_map_with`: moves the source,
the initial state and the function into a `FilterMapWith` adaptor. -/
def filter_map_with (iter : List α) (state : S)
    (predicate : S → α → Option β × S) : FilterMapWith α β S :=
  ⟨iter, predicate, state⟩

/-- The loop body of `FilterWith::next` (src/src/lib.rs lines 20-27) for a
list source: repeatedly draw the next item `x` from the source; invoke the
predicate on the current state and the item; on `true` return `Some(x)`
at once, on `false` discard `x` and continue; when the source is exhausted
return `None`.  The result carries the remaining source items and the
final state alongside the returned value. -/
def FilterWith.nextAux (p : S → α → Bool × S) :
    List α → S → Option α × List α × S
  | [], s => (none, [], s)
  | x :: xs, s =>
    match p s x with
    | (true, s') => (some x, xs, s')
    | (false, s') => FilterWith.nextAux p xs s'

/-- The method `FilterWith::next`, as a state transformer on the adaptor:
returns the produced item (or `none` at end-of-sequence) and the adaptor
as left by the call. -/
def FilterWith.next (f : FilterWith α S) : Option α × FilterWith α S :=
  match FilterWith.nextAux f.predicate f.iter f.state with
  | (r, l, s) => (r, ⟨l, f.predicate, s⟩)

/-- The loop body of `FilterMapWith::next` (src/src/lib.rs lines 49-56) for
a list source: repeatedly draw the next item `x`; invoke the function on
the state and the (owned) item; on `Some(y)` return `Some(y)` at once, on
`None` drop `x` and continue; when the source is exhausted return `None`. -/
def FilterMapWith.nextAux (p : S → α → Option β × S) :
    List α → S → Option β × List α × S
  | [], s => (none, [], s)
  | x :: xs, s =>
    match p s x with
    | (some y, s') => (some y, xs, s')
    | (none, s') => FilterMapWith.nextAux p xs s'

/-- The method `FilterMapWith::next`, as a state transformer on the
adaptor. -/
def FilterMapWith.next (f : FilterMapWith α β S) :
    Option β × FilterMapWith α β S :=
  match FilterMapWith.nextAux f.predicate f.iter f.state with
  | (r, l, s) => (r, ⟨l, f.predicate, s⟩)

/-- The method `FilterWith::size_hint` (src/src/lib.rs lines 14-17):
`let (_, upper) = self.iter.size_hint(); (0, upper)`.  The source
iterator's own `size_hint` is an arbitrary function `szI` of the items it
has yet to yield. -/
def FilterWith.size_hint (szI : List α → Nat × Option Nat)
    (f : FilterWith α S) : Nat × Option Nat :=
  match szI f.iter with
  | (_, upper) => (0, upper)

/-- The method `FilterMapWith::size_hint` (src/src/lib.rs lines 43-46),
identical in code to `FilterWith::size_hint`. -/
def FilterMapWith.size_hint (szI : List α → Nat × Option Nat)
    (f : FilterMapWith α β S) : Nat × Option Nat :=
  match szI f.iter with
  | (_, upper) => (0, upper)

/-- Driving a `FilterWith` adaptor to exhaustion by repeated `next` calls
(as `collect` does in the tests): each successful call consumes at least
one source item, so `l.length + 1` calls always suffice; the fuel argument
counts the calls still allowed and is never exhausted when started at
`l.length + 1`.  Returns the yielded items in order, the remaining source
and the final state. -/
def FilterWith.runAux (p : S → α → Bool × S) :
    Nat → List α → S → List α × List α × S
  | 0, l, s => ([], l, s)
  | fuel + 1, l, s =>
    match FilterWith.nextAux p l s with
    | (none, l', s') => ([], l', s')
    | (some x, l', s') =>
      match FilterWith.runAux p fuel l' s' with
      | (out, l'', s'') => (x :: out, l'', s'')

/-- The sequence of items yielded by a `FilterWith` adaptor together with
the adaptor as left after exhaustion. -/
def FilterWith.run (f : FilterWith α S) : List α × FilterWith α S :=
  match FilterWith.runAux f.predicate (f.iter.length + 1) f.iter f.state with
  | (out, l, s) => (out, ⟨l, f.predicate, s⟩)

/-- Driving a `FilterMapWith` adaptor to exhaustion by repeated `next`
calls, in the same fuelled style as `FilterWith.runAux`. -/
def FilterMapWith.runAux (p : S → α → Option β × S) :
    Nat → List α → S → List β × List α × S
  | 0, l, s => ([], l, s)
  | fuel + 1, l, s =>
    match FilterMapWith.nextAux p l s with
    | (none, l', s') => ([], l', s')
    | (some y, l', s') =>
      match FilterMapWith.runAux p fuel l' s' with
      | (out, l'', s'') => (y :: out, l'', s'')

/-- The sequence of values yielded by a `FilterMapWith` adaptor together
with the adaptor as left after exhaustion. -/
def FilterMapWith.run (f : FilterMapWith α β S) :
    List β × FilterMapWith α β S :=
  match FilterMapWith.runAux f.predicate (f.iter.length + 1) f.iter f.state with
  | (out, l, s) => (out, ⟨l, f.predicate, s⟩)

/-- Modelled from the spec (section 4.1 and section 8): the reference
simulation of stateful filtering, keeping, in original order, exactly the
items for which the predicate — with the state threaded through every call
in source order — returns true. -/
def specFilterWith (p : S → α → Bool × S) : List α → S → List α
  | [], _ => []
  | x :: xs, s =>
    match p s x with
    | (true, s') => x :: specFilterWith p xs s'
    | (false, s') => specFilterWith p xs s'

/-- Modelled from the spec (section 4.2): the reference simulation of
stateful filter-mapping, keeping, in original order, the mapped value for
exactly the items on which the function returns a present value, with the
state threaded through every call in source order. -/
def specFilterMapWith (p : S → α → Option β × S) : List α → S → List β
  | [], _ => []
  | x :: xs, s =>
    match p s x with
    | (some y, s') => y :: specFilterMapWith p xs s'
    | (none, s') => specFilterMapWith p xs s'

/-- Modelled from the spec (invariants, section 3): the state obtained by
applying the predicate exactly once per listed item, in source order,
threading the state through every call. -/
def stateAfter (p : S → α → Bool × S) (l : List α) (s : S) : S :=
  l.foldl (fun t x => (p t x).2) s

/-- Modelled from the spec: the state obtained by applying the filter-map
function exactly once per listed item, in source order. -/
def stateAfterFM (p : S → α → Option β × S) (l : List α) (s : S) : S :=
  l.foldl (fun t x => (p t x).2) s

/-- Modelled from the spec (section 8, state-mutation order): the sequence
of accept/reject decisions the predicate makes on the listed items, in
source order, with the state threaded through every call. -/
def replayAccepts (p : S → α → Bool × S) : List α → S → List Bool
  | [], _ => []
  | x :: xs, s =>
    match p s x with
    | (b, s') => b :: replayAccepts p xs s'

/-- Modelled from the spec: the sequence of keep/drop decisions the
filter-map function makes on the listed items, in source order. -/
def replayKeeps (p : S → α → Option β × S) : List α → S → List Bool
  | [], _ => []
  | x :: xs, s =>
    match p s x with
    | (r, s') => r.isSome :: replayKeeps p xs s'

/-!
General source-iterator model.  An arbitrary Rust iterator is a step
function `step : σ → Option α × σ` on an internal state `σ`, returning the
optional item and the state after the call; the state advances on every
call, also when `None` is returned, exactly as `fn next(&mut self)` may
mutate `self` before returning `None`.  The adaptor loops of
`FilterWith::next` and `FilterMapWith::next` may then run any number of
iterations, so they are given fuel: a result `none` means the loop has not
returned within `fuel` iterations, `some (r, it, s)` means the call
returned `r` leaving source state `it` and filter state `s`. -/

/-- The loop of `FilterWith::next` over an arbitrary source iterator
`step`, with fuel bounding the number of loop iterations. -/
def FilterWith.nextG (step : σ → Option α × σ) (p : S → α → Bool × S) :
    Nat → σ → S → Option (Option α × σ × S)
  | 0, _, _ => none
  | fuel + 1, it, s =>
    match step it with
    | (none, it') => some (none, it', s)
    | (some x, it') =>
      match p s x with
      | (true, s') => some (some x, it', s')
      | (false, s') => FilterWith.nextG step p fuel it' s'

/-- The loop of `FilterMapWith::next` over an arbitrary source iterator
`step`, with fuel bounding the number of loop iterations. -/
def FilterMapWith.nextG (step : σ → Option α × σ) (p : S → α → Option β × S) :
    Nat → σ → S → Option (Option β × σ × S)
  | 0, _, _ => none
  | fuel + 1, it, s =>
    match step it with
    | (none, it') => some (none, it', s)
    | (some x, it') =>
      match p s x with
      | (some y, s') => some (some y, it', s')
      | (none, s') => FilterMapWith.nextG step p fuel it' s'

/-- A source iterator is fused when, once it has returned `None`, every
later call also returns `None` (Rust's `FusedIterator` contract; an
arbitrary `Iterator` need not satisfy it). -/
def Fused (step : σ → Option α × σ) : Prop :=
  ∀ it, (step it).1 = none → (step (step it).2).1 = none

/-- The source state after one further pull, used to describe the chain of
states an exhausted source passes through. -/
def stepState (step : σ → Option α × σ) (it : σ) : σ :=
  (step it).2

/-- A concrete non-fused source iterator: its state counts the calls made
so far; the first call returns `None` and every later call returns
`some 42`.  A legal Rust `Iterator` (nothing requires fusing). -/
def weirdStep : Nat → Option Nat × Nat :=
  fun n => (if n = 0 then none else some 42, n + 1)

/-- A stateful predicate that accepts every item and leaves the state
unchanged. -/
def alwaysTrue : Unit → Nat → Bool × Unit :=
  fun s _ => (true, s)

/-- The `filter_map_with` function equivalent to a given `filter_with`
predicate `p`: apply `p` to the state and the item, and return the item
itself when `p` answers true, nothing otherwise. -/
def toFMP (p : S → α → Bool × S) : S → α → Option α × S :=
  fun s x =>
    match p s x with
    | (b, s') => (if b then some x else none, s')

/-- A call a consumer can make on an adaptor: a pull-next call or a
`size_hint` call. -/
inductive MCall where
  | mnext : MCall
  | msize : MCall
deriving DecidableEq

/-- Running a sequence of `next` and `size_hint` calls against a
`FilterWith` adaptor, collecting the outputs of the pull-next calls, the
outputs of the `size_hint` calls, and the final adaptor.  A `size_hint`
call leaves the adaptor unchanged, which the Rust code guarantees by
taking `&self` (no interior mutability is involved). -/
def FilterWith.applyCalls (szI : List α → Nat × Option Nat) :
    List MCall → FilterWith α S →
    List (Option α) × List (Nat × Option Nat) × FilterWith α S
  | [], f => ([], [], f)
  | MCall.mnext :: t, f =>
    match FilterWith.next f with
    | (r, f') =>
      match FilterWith.applyCalls szI t f' with
      | (outs, szs, g) => (r :: outs, szs, g)
  | MCall.msize :: t, f =>
    match FilterWith.applyCalls szI t f with
    | (outs, szs, g) => (outs, FilterWith.size_hint szI f :: szs, g)

/-- Running a sequence of `next` and `size_hint` calls against a
`FilterMapWith` adaptor, in the same style as `FilterWith.applyCalls`. -/
def FilterMapWith.applyCalls (szI : List α → Nat × Option Nat) :
    List MCall → FilterMapWith α β S →
    List (Option β) × List (Nat × Option Nat) × FilterMapWith α β S
  | [], f => ([], [], f)
  | MCall.mnext :: t, f =>
    match FilterMapWith.next f with
    | (r, f') =>
      match FilterMapWith.applyCalls szI t f' with
      | (outs, szs, g) => (r :: outs, szs, g)
  | MCall.msize :: t, f =>
    match FilterMapWith.applyCalls szI t f with
    | (outs, szs, g) => (outs, FilterMapWith.size_hint szI f :: szs, g)

/-- The predicate of the test `filter_with_does_not_take_ownership`
(src/src/lib.rs lines 117-121): compare `sum < item`, then add the item to
the running sum; the comparison's result is the decision. -/
def sumLtPred : Int → Int → Bool × Int :=
  fun sum i => (decide (sum < i), sum + i)

/-- The second predicate of the same test (lines 127-131), with the
comparison `sum <= item`. -/
def sumLePred : Int → Int → Bool × Int :=
  fun sum i => (decide (sum ≤ i), sum + i)

/-- The function of the test `filter_map_with_predicate`
(src/src/lib.rs lines 158-166): if the item was already seen, reject it;
otherwise record it in the seen list and return its square. -/
def squareOnceFn : List Int → Int → Option Int × List Int :=
  fun s i => if s.contains i then (none, s) else (some (i * i), s ++ [i])

/-- Whether a consumer call is a pull-next call; used to erase the
`size_hint` calls from a call sequence. -/
def isPull : MCall → Bool
  | MCall.mnext => true
  | MCall.msize => false

/-- A concrete fused source iterator that is exhausted from the start: it
always returns `None`, while still advancing its internal counter. -/
def fusedNoneStep : Nat → Option Nat × Nat :=
  fun n => (none, n + 1)

/-!
Helper lemmas.  These relate one `next` call, and a run to exhaustion, to
the spec-side replay functions.
-/

theorem FilterWith.nextAux_none (p : S → α → Bool × S) :
    ∀ l s l' s', FilterWith.nextAux p l s = (none, l', s') →
      l' = [] ∧ s' = stateAfter p l s ∧ specFilterWith p l s = [] := by
  intro l
  induction l with
  | nil =>
    intro s l' s' h
    simp only [FilterWith.nextAux, Prod.mk.injEq] at h
    obtain ⟨-, h1, h2⟩ := h
    subst h1
    subst h2
    simp [stateAfter, specFilterWith]
  | cons x xs ih =>
    intro s l' s' h
    rcases hp : p s x with ⟨b, s₂⟩
    cases b
    · have h' : FilterWith.nextAux p xs s₂ = (none, l', s') := by
        simpa [FilterWith.nextAux, hp] using h
      obtain ⟨h1, h2, h3⟩ := ih s₂ l' s' h'
      refine ⟨h1, ?_, ?_⟩
      · simpa [stateAfter, hp] using h2
      · simp [specFilterWith, hp, h3]
    · simp [FilterWith.nextAux, hp] at h

theorem FilterWith.nextAux_some (p : S → α → Bool × S) :
    ∀ l s x l' s', FilterWith.nextAux p l s = (some x, l', s') →
      specFilterWith p l s = x :: specFilterWith p l' s' ∧
      stateAfter p l s = stateAfter p l' s' ∧ l'.length < l.length := by
  intro l
  induction l with
  | nil =>
    intro s x l' s' h
    simp [FilterWith.nextAux] at h
  | cons y ys ih =>
    intro s x l' s' h
    rcases hp : p s y with ⟨b, s₂⟩
    cases b
    · have h' : FilterWith.nextAux p ys s₂ = (some x, l', s') := by
        simpa [FilterWith.nextAux, hp] using h
      obtain ⟨h1, h2, h3⟩ := ih s₂ x l' s' h'
      refine ⟨?_, ?_, ?_⟩
      · simp [specFilterWith, hp, h1]
      · simpa [stateAfter, hp] using h2
      · simp
        omega
    · simp only [FilterWith.nextAux, hp, Prod.mk.injEq, Option.some.injEq] at h
      obtain ⟨hx, hl, hs⟩ := h
      subst hx hl hs
      refine ⟨by simp [specFilterWith, hp], by simp [stateAfter, hp], by simp⟩

theorem FilterWith.runAux_spec (p : S → α → Bool × S) :
    ∀ fuel l s, l.length < fuel →
      FilterWith.runAux p fuel l s =
        (specFilterWith p l s, [], stateAfter p l s) := by
  intro fuel
  induction fuel with
  | zero => intro l s h; omega
  | succ n ih =>
    intro l s h
    rcases hnx : FilterWith.nextAux p l s with ⟨r, l', s'⟩
    cases r with
    | none =>
      obtain ⟨h1, h2, h3⟩ := FilterWith.nextAux_none p l s l' s' hnx
      simp [FilterWith.runAux, hnx, h1, h2, h3]
    | some x =>
      obtain ⟨h1, h2, h3⟩ := FilterWith.nextAux_some p l s x l' s' hnx
      have ih2 := ih l' s' (by omega)
      simp [FilterWith.runAux, hnx, ih2, h1, h2]

theorem FilterWith.run_spec (f : FilterWith α S) :
    FilterWith.run f = (specFilterWith f.predicate f.iter f.state,
      ⟨[], f.predicate, stateAfter f.predicate f.iter f.state⟩) := by
  have h := FilterWith.runAux_spec f.predicate (f.iter.length + 1)
    f.iter f.state (by omega)
  simp [FilterWith.run, h]

theorem specFilterWith_sublist (p : S → α → Bool × S) :
    ∀ l s, List.Sublist (specFilterWith p l s) l := by
  intro l
  induction l with
  | nil => intro s; simp [specFilterWith]
  | cons x xs ih =>
    intro s
    rcases hp : p s x with ⟨b, s₂⟩
    cases b
    · simpa [specFilterWith, hp] using List.Sublist.cons x (ih s₂)
    · simpa [specFilterWith, hp] using List.Sublist.cons₂ x (ih s₂)

theorem FilterMapWith.nextAux_none_fm (p : S → α → Option β × S) :
    ∀ l s l' s', FilterMapWith.nextAux p l s = (none, l', s') →
      l' = [] ∧ s' = stateAfterFM p l s ∧ specFilterMapWith p l s = [] := by
  intro l
  induction l with
  | nil =>
    intro s l' s' h
    simp only [FilterMapWith.nextAux, Prod.mk.injEq] at h
    obtain ⟨-, h1, h2⟩ := h
    subst h1
    subst h2
    simp [stateAfterFM, specFilterMapWith]
  | cons x xs ih =>
    intro s l' s' h
    rcases hp : p s x with ⟨r, s₂⟩
    cases r
    · have h' : FilterMapWith.nextAux p xs s₂ = (none, l', s') := by
        simpa [FilterMapWith.nextAux, hp] using h
      obtain ⟨h1, h2, h3⟩ := ih s₂ l' s' h'
      refine ⟨h1, ?_, ?_⟩
      · simpa [stateAfterFM, hp] using h2
      · simp [specFilterMapWith, hp, h3]
    · simp [FilterMapWith.nextAux, hp] at h

theorem FilterMapWith.nextAux_some_fm (p : S → α → Option β × S) :
    ∀ l s y l' s', FilterMapWith.nextAux p l s = (some y, l', s') →
      specFilterMapWith p l s = y :: specFilterMapWith p l' s' ∧
      stateAfterFM p l s = stateAfterFM p l' s' ∧ l'.length < l.length := by
  intro l
  induction l with
  | nil =>
    intro s y l' s' h
    simp [FilterMapWith.nextAux] at h
  | cons x xs ih =>
    intro s y l' s' h
    rcases hp : p s x with ⟨r, s₂⟩
    cases r with
    | none =>
      have h' : FilterMapWith.nextAux p xs s₂ = (some y, l', s') := by
        simpa [FilterMapWith.nextAux, hp] using h
      obtain ⟨h1, h2, h3⟩ := ih s₂ y l' s' h'
      refine ⟨?_, ?_, ?_⟩
      · simp [specFilterMapWith, hp, h1]
      · simpa [stateAfterFM, hp] using h2
      · simp
        omega
    | some z =>
      simp only [FilterMapWith.nextAux, hp, Prod.mk.injEq, Option.some.injEq] at h
      obtain ⟨hy, hl, hs⟩ := h
      subst hy hl hs
      exact ⟨by simp [specFilterMapWith, hp], by simp [stateAfterFM, hp], by simp⟩

theorem FilterMapWith.runAux_spec_fm (p : S → α → Option β × S) :
    ∀ fuel l s, l.length < fuel →
      FilterMapWith.runAux p fuel l s =
        (specFilterMapWith p l s, [], stateAfterFM p l s) := by
  intro fuel
  induction fuel with
  | zero => intro l s h; omega
  | succ n ih =>
    intro l s h
    rcases hnx : FilterMapWith.nextAux p l s with ⟨r, l', s'⟩
    cases r with
    | none =>
      obtain ⟨h1, h2, h3⟩ := FilterMapWith.nextAux_none_fm p l s l' s' hnx
      simp [FilterMapWith.runAux, hnx, h1, h2, h3]
    | some y =>
      obtain ⟨h1, h2, h3⟩ := FilterMapWith.nextAux_some_fm p l s y l' s' hnx
      have ih2 := ih l' s' (by omega)
      simp [FilterMapWith.runAux, hnx, ih2, h1, h2]

theorem FilterMapWith.run_spec_fm (f : FilterMapWith α β S) :
    FilterMapWith.run f = (specFilterMapWith f.predicate f.iter f.state,
      ⟨[], f.predicate, stateAfterFM f.predicate f.iter f.state⟩) := by
  have h := FilterMapWith.runAux_spec_fm f.predicate (f.iter.length + 1)
    f.iter f.state (by omega)
  simp [FilterMapWith.run, h]

theorem FilterMapWith.nextAux_toFMP (p : S → α → Bool × S) :
    ∀ l s, FilterMapWith.nextAux (toFMP p) l s = FilterWith.nextAux p l s := by
  intro l
  induction l with
  | nil => intro s; rfl
  | cons x xs ih =>
    intro s
    rcases hp : p s x with ⟨b, s'⟩
    cases b
    · simp [FilterMapWith.nextAux, FilterWith.nextAux, toFMP, hp, ih]
    · simp [FilterMapWith.nextAux, FilterWith.nextAux, toFMP, hp]

theorem FilterMapWith.runAux_toFMP (p : S → α → Bool × S) :
    ∀ fuel l s,
      FilterMapWith.runAux (toFMP p) fuel l s = FilterWith.runAux p fuel l s := by
  intro fuel
  induction fuel with
  | zero => intro l s; rfl
  | succ n ih =>
    intro l s
    rcases hnx : FilterWith.nextAux p l s with ⟨r, l', s'⟩
    cases r with
    | none =>
      simp [FilterMapWith.runAux, FilterWith.runAux,
        FilterMapWith.nextAux_toFMP, hnx]
    | some x =>
      simp [FilterMapWith.runAux, FilterWith.runAux,
        FilterMapWith.nextAux_toFMP, hnx, ih]

/-- C1: for every source sequence, initial state and predicate, the items
yielded by the `FilterWith` adaptor built by `filter_with` are exactly the
items the spec-side replay keeps — those for which the predicate, with the
state threaded through every call in source order, returns true — the
final state is the fold of the predicate over the whole source, and the
output is a subsequence of the source preserving relative order. -/
theorem c1_filter_with_correct (α S : Type) (l : List α) (s : S)
    (p : S → α → Bool × S) :
    (FilterWith.run (filter_with l s p)).1 = specFilterWith p l s ∧
    ((FilterWith.run (filter_with l s p)).2).state = stateAfter p l s ∧
    List.Sublist ((FilterWith.run (filter_with l s p)).1) l := by
  refine ⟨?_, ?_, ?_⟩
  · simp [FilterWith.run_spec, filter_with]
  · simp [FilterWith.run_spec, filter_with]
  · simp only [FilterWith.run_spec, filter_with]
    exact specFilterWith_sublist p l s

/-- C2: for every source sequence, initial state and optional-value
function, the values yielded by the `FilterMapWith` adaptor built by
`filter_map_with` are exactly, in source order, the mapped values the
spec-side replay keeps — those for which the function, with the state
threaded through every call in source order, returns a present value —
and the final state is the fold of the function over the whole source.
The output type `β` may differ from the source item type `α`. -/
theorem c2_filter_map_with_correct (α β S : Type) (l : List α) (s : S)
    (p : S → α → Option β × S) :
    (FilterMapWith.run (filter_map_with l s p)).1 = specFilterMapWith p l s ∧
    ((FilterMapWith.run (filter_map_with l s p)).2).state = stateAfterFM p l s := by
  refine ⟨?_, ?_⟩
  · simp [FilterMapWith.run_spec_fm, filter_map_with]
  · simp [FilterMapWith.run_spec_fm, filter_map_with]

/-- C5: whatever length hint `(lo, u)` the source reports, both adaptors
report exactly `(0, u)`: lower bound zero, the source's upper bound
unchanged, independently of the predicate, the function and the state. -/
theorem c5_size_hint_bounds (szI : List α → Nat × Option Nat) (l : List α)
    (s : S) (p : S → α → Bool × S) (q : S → α → Option β × S)
    (lo : Nat) (u : Option Nat) (h : szI l = (lo, u)) :
    FilterWith.size_hint szI (filter_with l s p) = (0, u) ∧
    FilterMapWith.size_hint szI (filter_map_with l s q) = (0, u) := by
  constructor
  · simp [FilterWith.size_hint, filter_with, h]
  · simp [FilterMapWith.size_hint, filter_map_with, h]

/-- Witness for C5 at a concrete source, hint function, predicate and
function. -/
theorem c5_size_hint_bounds_witness :
    FilterWith.size_hint (fun l => (l.length, some l.length))
      (filter_with [1, 2, 3] (0 : Nat) (fun s x => (decide (s < x), s + x))) =
      (0, some 3) ∧
    FilterMapWith.size_hint (fun l => (l.length, some l.length))
      (filter_map_with [1, 2, 3] (0 : Nat) (fun s x => (some (x + s), s))) =
      (0, some 3) :=
  c5_size_hint_bounds (fun l => (l.length, some l.length)) [1, 2, 3] 0
    (fun s x => (decide (s < x), s + x)) (fun s x => (some (x + s), s))
    3 (some 3) rfl

/-- C7: filtering the sequence 0, 1, 3, 2, 8, 14 with running sum starting
at 0 and the predicate comparing sum with the item before adding the item
yields 1, 3, 8 under the strict comparison and 0, 1, 3, 8, 14 under the
non-strict one, exactly as the test
`filter_with_does_not_take_ownership` asserts. -/
theorem c7_reference_filter_outputs :
    (FilterWith.run (filter_with ([0, 1, 3, 2, 8, 14] : List Int) 0
      sumLtPred)).1 = [1, 3, 8] ∧
    (FilterWith.run (filter_with ([0, 1, 3, 2, 8, 14] : List Int) 0
      sumLePred)).1 = [0, 1, 3, 8, 14] := by
  constructor
  · decide
  · decide

/-- C8: filter-mapping the sequence 0, 1, 2, 3, 4, 5 with an initially
empty seen-list and the function that rejects seen items and otherwise
records the item and returns its square yields 0, 1, 4, 9, 16, 25,
exactly as the test `filter_map_with_predicate` asserts. -/
theorem c8_square_once_outputs :
    (FilterMapWith.run (filter_map_with ([0, 1, 2, 3, 4, 5] : List Int)
      ([] : List Int) squareOnceFn)).1 = [0, 1, 4, 9, 16, 25] := by
  decide

/-- C9: a `FilterWith` adaptor behaves exactly like the `FilterMapWith`
adaptor whose function applies the same predicate and returns the item
itself on true and nothing on false: each single pull-next call yields the
same result, leaves the same remaining source and the same state, and a
run to exhaustion yields the same items, the same final state, and the
same remaining source. -/
theorem c9_filter_as_filter_map (α S : Type) (l : List α) (s : S)
    (p : S → α → Bool × S) :
    (FilterMapWith.next (filter_map_with l s (toFMP p))).1 =
      (FilterWith.next (filter_with l s p)).1 ∧
    (FilterMapWith.next (filter_map_with l s (toFMP p))).2.iter =
      (FilterWith.next (filter_with l s p)).2.iter ∧
    (FilterMapWith.next (filter_map_with l s (toFMP p))).2.state =
      (FilterWith.next (filter_with l s p)).2.state ∧
    (FilterMapWith.run (filter_map_with l s (toFMP p))).1 =
      (FilterWith.run (filter_with l s p)).1 ∧
    (FilterMapWith.run (filter_map_with l s (toFMP p))).2.iter =
      (FilterWith.run (filter_with l s p)).2.iter ∧
    (FilterMapWith.run (filter_map_with l s (toFMP p))).2.state =
      (FilterWith.run (filter_with l s p)).2.state := by
  rcases hnx : FilterWith.nextAux p l s with ⟨r, l', s'⟩
  rcases hrn : FilterWith.runAux p (l.length + 1) l s with ⟨out, l'', s''⟩
  refine ⟨?_, ?_, ?_, ?_, ?_, ?_⟩ <;>
    simp [FilterMapWith.next, FilterWith.next, FilterMapWith.run,
      FilterWith.run, filter_with, filter_map_with,
      FilterMapWith.nextAux_toFMP, FilterMapWith.runAux_toFMP, hnx, hrn]

theorem FilterWith.next_def (f : FilterWith α S) :
    FilterWith.next f = ((FilterWith.nextAux f.predicate f.iter f.state).1,
      ⟨(FilterWith.nextAux f.predicate f.iter f.state).2.1, f.predicate,
        (FilterWith.nextAux f.predicate f.iter f.state).2.2⟩) := by
  rcases h : FilterWith.nextAux f.predicate f.iter f.state with ⟨r, l', s'⟩
  simp [FilterWith.next, h]

theorem FilterMapWith.next_def_fm (f : FilterMapWith α β S) :
    FilterMapWith.next f = ((FilterMapWith.nextAux f.predicate f.iter f.state).1,
      ⟨(FilterMapWith.nextAux f.predicate f.iter f.state).2.1, f.predicate,
        (FilterMapWith.nextAux f.predicate f.iter f.state).2.2⟩) := by
  rcases h : FilterMapWith.nextAux f.predicate f.iter f.state with ⟨r, l', s'⟩
  simp [FilterMapWith.next, h]

theorem FilterWith.nextAux_drawn (p : S → α → Bool × S) :
    ∀ l s, ∃ k, k ≤ l.length ∧
      (FilterWith.nextAux p l s).2.1 = List.drop k l ∧
      (FilterWith.nextAux p l s).2.2 = stateAfter p (List.take k l) s ∧
      ((FilterWith.nextAux p l s).1 = none →
        k = l.length ∧ replayAccepts p l s = List.replicate k false) ∧
      (∀ x, (FilterWith.nextAux p l s).1 = some x →
        0 < k ∧ List.drop (k - 1) l = x :: List.drop k l ∧
        replayAccepts p (List.take k l) s =
          List.replicate (k - 1) false ++ [true]) := by
  intro l
  induction l with
  | nil =>
    intro s
    refine ⟨0, by simp, ?_, ?_, ?_, ?_⟩ <;>
      simp [FilterWith.nextAux, stateAfter, replayAccepts]
  | cons x xs ih =>
    intro s
    rcases hp : p s x with ⟨b, s₂⟩
    cases b
    · obtain ⟨k, hk, h1, h2, h3, h4⟩ := ih s₂
      refine ⟨k + 1, by simpa using hk, ?_, ?_, ?_, ?_⟩
      · simpa [FilterWith.nextAux, hp] using h1
      · simpa [FilterWith.nextAux, hp, stateAfter] using h2
      · intro hnone
        have hnone' : (FilterWith.nextAux p xs s₂).1 = none := by
          simpa [FilterWith.nextAux, hp] using hnone
        obtain ⟨hk', hr⟩ := h3 hnone'
        refine ⟨by simp [hk'], ?_⟩
        simp [replayAccepts, hp, hr, hk', List.replicate_succ]
      · intro x' hsome
        have hsome' : (FilterWith.nextAux p xs s₂).1 = some x' := by
          simpa [FilterWith.nextAux, hp] using hsome
        obtain ⟨hkpos, hdrop, hr⟩ := h4 x' hsome'
        obtain ⟨m, rfl⟩ : ∃ m, k = m + 1 := ⟨k - 1, by omega⟩
        refine ⟨by omega, ?_, ?_⟩
        · simpa using hdrop
        · simpa [replayAccepts, hp, List.replicate_succ] using hr
    · refine ⟨1, by simp, ?_, ?_, ?_, ?_⟩
      · simp [FilterWith.nextAux, hp]
      · simp [FilterWith.nextAux, hp, stateAfter]
      · intro hnone
        simp [FilterWith.nextAux, hp] at hnone
      · intro x' hsome
        have hx : x = x' := by
          simpa [FilterWith.nextAux, hp] using hsome
        subst hx
        exact ⟨by omega, by simp, by simp [replayAccepts, hp]⟩

theorem FilterMapWith.nextAux_drawn_fm (q : S → α → Option β × S) :
    ∀ l s, ∃ k, k ≤ l.length ∧
      (FilterMapWith.nextAux q l s).2.1 = List.drop k l ∧
      (FilterMapWith.nextAux q l s).2.2 = stateAfterFM q (List.take k l) s ∧
      ((FilterMapWith.nextAux q l s).1 = none →
        k = l.length ∧ replayKeeps q l s = List.replicate k false) ∧
      (∀ y, (FilterMapWith.nextAux q l s).1 = some y →
        0 < k ∧ replayKeeps q (List.take k l) s =
          List.replicate (k - 1) false ++ [true]) := by
  intro l
  induction l with
  | nil =>
    intro s
    refine ⟨0, by simp, ?_, ?_, ?_, ?_⟩ <;>
      simp [FilterMapWith.nextAux, stateAfterFM, replayKeeps]
  | cons x xs ih =>
    intro s
    rcases hp : q s x with ⟨r, s₂⟩
    cases r with
    | none =>
      obtain ⟨k, hk, h1, h2, h3, h4⟩ := ih s₂
      refine ⟨k + 1, by simpa using hk, ?_, ?_, ?_, ?_⟩
      · simpa [FilterMapWith.nextAux, hp] using h1
      · simpa [FilterMapWith.nextAux, hp, stateAfterFM] using h2
      · intro hnone
        have hnone' : (FilterMapWith.nextAux q xs s₂).1 = none := by
          simpa [FilterMapWith.nextAux, hp] using hnone
        obtain ⟨hk', hr⟩ := h3 hnone'
        refine ⟨by simp [hk'], ?_⟩
        simp [replayKeeps, hp, hr, hk', List.replicate_succ]
      · intro y hsome
        have hsome' : (FilterMapWith.nextAux q xs s₂).1 = some y := by
          simpa [FilterMapWith.nextAux, hp] using hsome
        obtain ⟨hkpos, hr⟩ := h4 y hsome'
        obtain ⟨m, rfl⟩ : ∃ m, k = m + 1 := ⟨k - 1, by omega⟩
        refine ⟨by omega, ?_⟩
        simpa [replayKeeps, hp, List.replicate_succ] using hr
    | some y =>
      refine ⟨1, by simp, ?_, ?_, ?_, ?_⟩
      · simp [FilterMapWith.nextAux, hp]
      · simp [FilterMapWith.nextAux, hp, stateAfterFM]
      · intro hnone
        simp [FilterMapWith.nextAux, hp] at hnone
      · intro y' hsome
        exact ⟨by omega, by simp [replayKeeps, hp]⟩

/-- C4: on any single pull-next call, some prefix of the source (of length
`k`) is drawn; the state afterwards is exactly the fold of the predicate
over that prefix — the predicate is invoked exactly once per drawn item,
in source order, and nothing else touches the state; the replayed
decisions show every drawn item was examined (all rejected when the call
signals end-of-sequence, all but the last — which is the returned item —
rejected when an item is returned).  Both adaptors are covered. -/
theorem c4_predicate_once_per_item (α β S : Type) (l : List α) (s : S)
    (p : S → α → Bool × S) (q : S → α → Option β × S) :
    (∃ k, k ≤ l.length ∧
      (FilterWith.next (filter_with l s p)).2.iter = List.drop k l ∧
      (FilterWith.next (filter_with l s p)).2.state =
        stateAfter p (List.take k l) s ∧
      ((FilterWith.next (filter_with l s p)).1 = none →
        k = l.length ∧ replayAccepts p l s = List.replicate k false) ∧
      (∀ x, (FilterWith.next (filter_with l s p)).1 = some x →
        0 < k ∧ List.drop (k - 1) l = x :: List.drop k l ∧
        replayAccepts p (List.take k l) s =
          List.replicate (k - 1) false ++ [true])) ∧
    (∃ k, k ≤ l.length ∧
      (FilterMapWith.next (filter_map_with l s q)).2.iter = List.drop k l ∧
      (FilterMapWith.next (filter_map_with l s q)).2.state =
        stateAfterFM q (List.take k l) s ∧
      ((FilterMapWith.next (filter_map_with l s q)).1 = none →
        k = l.length ∧ replayKeeps q l s = List.replicate k false) ∧
      (∀ y, (FilterMapWith.next (filter_map_with l s q)).1 = some y →
        0 < k ∧ replayKeeps q (List.take k l) s =
          List.replicate (k - 1) false ++ [true])) := by
  constructor
  · obtain ⟨k, hk, h1, h2, h3, h4⟩ := FilterWith.nextAux_drawn p l s
    exact ⟨k, hk, by simpa [FilterWith.next_def, filter_with] using h1,
      by simpa [FilterWith.next_def, filter_with] using h2,
      by simpa [FilterWith.next_def, filter_with] using h3,
      by simpa [FilterWith.next_def, filter_with] using h4⟩
  · obtain ⟨k, hk, h1, h2, h3, h4⟩ := FilterMapWith.nextAux_drawn_fm q l s
    exact ⟨k, hk, by simpa [FilterMapWith.next_def_fm, filter_map_with] using h1,
      by simpa [FilterMapWith.next_def_fm, filter_map_with] using h2,
      by simpa [FilterMapWith.next_def_fm, filter_map_with] using h3,
      by simpa [FilterMapWith.next_def_fm, filter_map_with] using h4⟩

/-- Witness for C4 at a concrete source, state, predicate and function. -/
theorem c4_predicate_once_per_item_witness :
    (∃ k, k ≤ 6 ∧
      (FilterWith.next (filter_with ([0, 1, 3, 2, 8, 14] : List Int) 0
        sumLtPred)).2.iter = List.drop k [0, 1, 3, 2, 8, 14] ∧
      (FilterWith.next (filter_with ([0, 1, 3, 2, 8, 14] : List Int) 0
        sumLtPred)).2.state =
        stateAfter sumLtPred (List.take k [0, 1, 3, 2, 8, 14]) 0 ∧
      ((FilterWith.next (filter_with ([0, 1, 3, 2, 8, 14] : List Int) 0
        sumLtPred)).1 = none →
        k = 6 ∧ replayAccepts sumLtPred [0, 1, 3, 2, 8, 14] 0 =
          List.replicate k false) ∧
      (∀ x, (FilterWith.next (filter_with ([0, 1, 3, 2, 8, 14] : List Int) 0
        sumLtPred)).1 = some x →
        0 < k ∧ List.drop (k - 1) [0, 1, 3, 2, 8, 14] =
          x :: List.drop k [0, 1, 3, 2, 8, 14] ∧
        replayAccepts sumLtPred (List.take k [0, 1, 3, 2, 8, 14]) 0 =
          List.replicate (k - 1) false ++ [true])) ∧
    (∃ k, k ≤ 6 ∧
      (FilterMapWith.next (filter_map_with ([0, 1, 3, 2, 8, 14] : List Int)
        ([] : List Int) squareOnceFn)).2.iter = List.drop k [0, 1, 3, 2, 8, 14] ∧
      (FilterMapWith.next (filter_map_with ([0, 1, 3, 2, 8, 14] : List Int)
        ([] : List Int) squareOnceFn)).2.state =
        stateAfterFM squareOnceFn (List.take k [0, 1, 3, 2, 8, 14]) [] ∧
      ((FilterMapWith.next (filter_map_with ([0, 1, 3, 2, 8, 14] : List Int)
        ([] : List Int) squareOnceFn)).1 = none →
        k = 6 ∧ replayKeeps squareOnceFn [0, 1, 3, 2, 8, 14] [] =
          List.replicate k false) ∧
      (∀ y, (FilterMapWith.next (filter_map_with ([0, 1, 3, 2, 8, 14] : List Int)
        ([] : List Int) squareOnceFn)).1 = some y →
        0 < k ∧ replayKeeps squareOnceFn (List.take k [0, 1, 3, 2, 8, 14]) [] =
          List.replicate (k - 1) false ++ [true])) :=
  c4_predicate_once_per_item Int Int Int [0, 1, 3, 2, 8, 14] 0 sumLtPred
    (fun _ _ => (none, 0)) |>.1.elim (fun k hk =>
      ⟨⟨k, hk⟩, (c4_predicate_once_per_item Int Int (List Int)
        [0, 1, 3, 2, 8, 14] [] (fun s x => (decide (s.length = 0), s))
        squareOnceFn).2⟩)

theorem FilterWith.nextAux_first_accept (p : S → α → Bool × S) :
    ∀ l i s x, List.drop i l = x :: List.drop (i + 1) l →
      replayAccepts p (List.take (i + 1) l) s =
        List.replicate i false ++ [true] →
      FilterWith.nextAux p l s =
        (some x, List.drop (i + 1) l, stateAfter p (List.take (i + 1) l) s) := by
  intro l
  induction l with
  | nil =>
    intro i s x hdrop hrep
    simp at hdrop
  | cons z zs ih =>
    intro i s x hdrop hrep
    rcases hp : p s z with ⟨b, s₂⟩
    cases i with
    | zero =>
      have hx : z = x := by simpa using congrArg (fun t => t.head?) hdrop
      subst hx
      have hb : b = true := by
        have := hrep
        simp only [List.take_succ_cons, List.take_zero, replayAccepts, hp,
          List.replicate, List.nil_append] at this
        simpa using this
      subst hb
      simp [FilterWith.nextAux, hp, stateAfter]
    | succ j =>
      have hb : b = false ∧ replayAccepts p (List.take (j + 1) zs) s₂ =
          List.replicate j false ++ [true] := by
        have := hrep
        simp only [List.take_succ_cons, replayAccepts, hp,
          List.replicate_succ, List.cons_append, List.cons.injEq] at this
        exact this
      obtain ⟨hb1, hb2⟩ := hb
      subst hb1
      have hdrop' : List.drop j zs = x :: List.drop (j + 1) zs := by
        simpa using hdrop
      have := ih j s₂ x hdrop' hb2
      simp [FilterWith.nextAux, hp, this, stateAfter]

theorem FilterMapWith.nextAux_first_keep (q : S → α → Option β × S) :
    ∀ l i s x y, List.drop i l = x :: List.drop (i + 1) l →
      replayKeeps q (List.take (i + 1) l) s =
        List.replicate i false ++ [true] →
      (q (stateAfterFM q (List.take i l) s) x).1 = some y →
      FilterMapWith.nextAux q l s =
        (some y, List.drop (i + 1) l, stateAfterFM q (List.take (i + 1) l) s) := by
  intro l
  induction l with
  | nil =>
    intro i s x y hdrop hrep hq
    simp at hdrop
  | cons z zs ih =>
    intro i s x y hdrop hrep hq
    rcases hp : q s z with ⟨r, s₂⟩
    cases i with
    | zero =>
      have hx : z = x := by simpa using congrArg (fun t => t.head?) hdrop
      subst hx
      have hr : r = some y := by
        have := hq
        simp only [List.take_zero, stateAfterFM, List.foldl_nil, hp] at this
        exact this
      subst hr
      simp [FilterMapWith.nextAux, hp, stateAfterFM]
    | succ j =>
      have hb : r.isSome = false ∧ replayKeeps q (List.take (j + 1) zs) s₂ =
          List.replicate j false ++ [true] := by
        have := hrep
        simp only [List.take_succ_cons, replayKeeps, hp,
          List.replicate_succ, List.cons_append, List.cons.injEq] at this
        exact this
      obtain ⟨hb1, hb2⟩ := hb
      have hr : r = none := by
        cases r
        · rfl
        · simp at hb1
      subst hr
      have hdrop' : List.drop j zs = x :: List.drop (j + 1) zs := by
        simpa using hdrop
      have hq' : (q (stateAfterFM q (List.take j zs) s₂) x).1 = some y := by
        have := hq
        simp only [List.take_succ_cons, stateAfterFM, List.foldl_cons, hp] at this
        exact this
      have := ih j s₂ x y hdrop' hb2 hq'
      simp [FilterMapWith.nextAux, hp, this, stateAfterFM]

/-- C6: a single pull-next call draws source items only up to the first
accepted one.  When the replayed decisions reject the first `i` items and
accept the item at position `i`, the call returns exactly that item (for
the filter) or its mapped value (for the filter-map), the remaining
source is exactly the untouched suffix after position `i`, and the state
reflects predicate calls on the first `i + 1` items only: nothing beyond
the accepted item is pulled. -/
theorem c6_no_speculative_pull (α β S : Type) (p : S → α → Bool × S)
    (q : S → α → Option β × S) :
    (∀ l i s x, List.drop i l = x :: List.drop (i + 1) l →
      replayAccepts p (List.take (i + 1) l) s =
        List.replicate i false ++ [true] →
      FilterWith.next (filter_with l s p) =
        (some x, ⟨List.drop (i + 1) l, p,
          stateAfter p (List.take (i + 1) l) s⟩)) ∧
    (∀ l i s x y, List.drop i l = x :: List.drop (i + 1) l →
      replayKeeps q (List.take (i + 1) l) s =
        List.replicate i false ++ [true] →
      (q (stateAfterFM q (List.take i l) s) x).1 = some y →
      FilterMapWith.next (filter_map_with l s q) =
        (some y, ⟨List.drop (i + 1) l, q,
          stateAfterFM q (List.take (i + 1) l) s⟩)) := by
  constructor
  · intro l i s x hdrop hrep
    have h := FilterWith.nextAux_first_accept p l i s x hdrop hrep
    simp [FilterWith.next, filter_with, h]
  · intro l i s x y hdrop hrep hq
    have h := FilterMapWith.nextAux_first_keep q l i s x y hdrop hrep hq
    simp [FilterMapWith.next, filter_map_with, h]

/-- Witness for C6: on the source 0, 1, 3, 2, 8, 14 with the running-sum
predicate, the first accepted item is at position 1, so one pull returns
item 1 and leaves the last four items un-pulled; on the same source the
filter-map function that squares only items above 2 first keeps the item
at position 2. -/
theorem c6_no_speculative_pull_witness :
    FilterWith.next (filter_with ([0, 1, 3, 2, 8, 14] : List Int) 0
      sumLtPred) =
      (some 1, ⟨List.drop 2 [0, 1, 3, 2, 8, 14], sumLtPred,
        stateAfter sumLtPred (List.take 2 [0, 1, 3, 2, 8, 14]) 0⟩) ∧
    FilterMapWith.next (filter_map_with ([0, 1, 3, 2, 8, 14] : List Int)
      ([] : List Int) squareOnceFn) =
      (some 0, ⟨List.drop 1 [0, 1, 3, 2, 8, 14], squareOnceFn,
        stateAfterFM squareOnceFn (List.take 1 [0, 1, 3, 2, 8, 14]) []⟩) :=
  ⟨(c6_no_speculative_pull Int Int Int sumLtPred
      (fun s x => (some x, s))).1
      [0, 1, 3, 2, 8, 14] 1 0 1 (by decide) (by decide),
    (c6_no_speculative_pull Int Int (List Int)
      (fun s x => (true, s)) squareOnceFn).2
      [0, 1, 3, 2, 8, 14] 0 [] 0 0 (by decide) (by decide) (by decide)⟩

theorem FilterWith.nextG_none_step (step : σ → Option α × σ)
    (p : S → α → Bool × S) (hF : Fused step) :
    ∀ fuel it s it' s',
      FilterWith.nextG step p fuel it s = some (none, it', s') →
      (step it').1 = none := by
  intro fuel
  induction fuel with
  | zero =>
    intro it s it' s' h
    simp [FilterWith.nextG] at h
  | succ n ih =>
    intro it s it' s' h
    rcases hst : step it with ⟨r, it₂⟩
    cases r with
    | none =>
      have hit : it' = it₂ := by
        simp only [FilterWith.nextG, hst, Option.some.injEq,
          Prod.mk.injEq] at h
        exact h.2.1.symm
      subst hit
      have h0 : (step it).1 = none := by simp [hst]
      have := hF it h0
      simpa [hst] using this
    | some x =>
      rcases hp : p s x with ⟨b, s₂⟩
      cases b
      · have h' : FilterWith.nextG step p n it₂ s₂ = some (none, it', s') := by
          simpa [FilterWith.nextG, hst, hp] using h
        exact ih it₂ s₂ it' s' h'
      · simp [FilterWith.nextG, hst, hp] at h

theorem FilterMapWith.nextG_none_step_fm (step : σ → Option α × σ)
    (q : S → α → Option β × S) (hF : Fused step) :
    ∀ fuel it s it' s',
      FilterMapWith.nextG step q fuel it s = some (none, it', s') →
      (step it').1 = none := by
  intro fuel
  induction fuel with
  | zero =>
    intro it s it' s' h
    simp [FilterMapWith.nextG] at h
  | succ n ih =>
    intro it s it' s' h
    rcases hst : step it with ⟨r, it₂⟩
    cases r with
    | none =>
      have hit : it' = it₂ := by
        simp only [FilterMapWith.nextG, hst, Option.some.injEq,
          Prod.mk.injEq] at h
        exact h.2.1.symm
      subst hit
      have h0 : (step it).1 = none := by simp [hst]
      have := hF it h0
      simpa [hst] using this
    | some x =>
      rcases hp : q s x with ⟨r', s₂⟩
      cases r' with
      | none =>
        have h' : FilterMapWith.nextG step q n it₂ s₂ = some (none, it', s') := by
          simpa [FilterMapWith.nextG, hst, hp] using h
        exact ih it₂ s₂ it' s' h'
      | some y =>
        simp [FilterMapWith.nextG, hst, hp] at h

theorem FilterWith.nextG_exhausted (step : σ → Option α × σ)
    (p : S → α → Bool × S) (it : σ) (s : S) (m : Nat)
    (h : (step it).1 = none) :
    FilterWith.nextG step p (m + 1) it s = some (none, (step it).2, s) := by
  rcases hst : step it with ⟨r, it₂⟩
  rw [hst] at h
  simp only at h
  subst h
  simp [FilterWith.nextG, hst]

theorem FilterMapWith.nextG_exhausted_fm (step : σ → Option α × σ)
    (q : S → α → Option β × S) (it : σ) (s : S) (m : Nat)
    (h : (step it).1 = none) :
    FilterMapWith.nextG step q (m + 1) it s = some (none, (step it).2, s) := by
  rcases hst : step it with ⟨r, it₂⟩
  rw [hst] at h
  simp only at h
  subst h
  simp [FilterMapWith.nextG, hst]

theorem fused_iterate (step : σ → Option α × σ) (hF : Fused step) :
    ∀ n it, (step it).1 = none →
      (step ((stepState step)^[n] it)).1 = none := by
  intro n
  induction n with
  | zero => intro it h; simpa using h
  | succ m ih =>
    intro it h
    rw [Function.iterate_succ_apply]
    exact ih (stepState step it) (hF it h)

/-- C3 is false as stated: with an arbitrary (non-fused) source iterator,
end-of-sequence is not permanent.  `weirdStep` is a legal source whose
first pull returns nothing and whose later pulls return item 42, and the
always-true predicate makes a `FilterWith` adaptor over it.  The first
pull-next on the adaptor (source state 0) signals end-of-sequence leaving
the adaptor with source state 1; the very next pull-next on that same
adaptor yields item 42. -/
theorem c3_counterexample :
    FilterWith.nextG weirdStep alwaysTrue 5 0 () = some (none, 1, ()) ∧
    FilterWith.nextG weirdStep alwaysTrue 5 1 () = some (some 42, 2, ()) := by
  constructor
  · decide
  · decide

/-- C3 (amended): exhaustion is permanent provided the wrapped source is
fused (once it returns nothing it keeps returning nothing, as every
well-behaved single-pass source does).  After a pull-next call on either
adaptor signals end-of-sequence, every subsequent pull-next call — the
n-th one finding the source in state `(stepState step)^[n] it'` — also
signals end-of-sequence, whatever the filter state and however much fuel
the loop is given. -/
theorem c3_exhaustion_permanent_fused (σ α β S : Type)
    (step : σ → Option α × σ) (p : S → α → Bool × S)
    (q : S → α → Option β × S) (hF : Fused step) :
    (∀ fuel it s it' s',
      FilterWith.nextG step p fuel it s = some (none, it', s') →
      ∀ n m s₂, FilterWith.nextG step p (m + 1) ((stepState step)^[n] it') s₂ =
        some (none, (stepState step)^[n + 1] it', s₂)) ∧
    (∀ fuel it s it' s',
      FilterMapWith.nextG step q fuel it s = some (none, it', s') →
      ∀ n m s₂, FilterMapWith.nextG step q (m + 1) ((stepState step)^[n] it') s₂ =
        some (none, (stepState step)^[n + 1] it', s₂)) := by
  constructor
  · intro fuel it s it' s' h n m s₂
    have h0 : (step it').1 = none :=
      FilterWith.nextG_none_step step p hF fuel it s it' s' h
    have hn : (step ((stepState step)^[n] it')).1 = none :=
      fused_iterate step hF n it' h0
    have := FilterWith.nextG_exhausted step p ((stepState step)^[n] it') s₂ m hn
    rw [this, Function.iterate_succ_apply']
    rfl
  · intro fuel it s it' s' h n m s₂
    have h0 : (step it').1 = none :=
      FilterMapWith.nextG_none_step_fm step q hF fuel it s it' s' h
    have hn : (step ((stepState step)^[n] it')).1 = none :=
      fused_iterate step hF n it' h0
    have := FilterMapWith.nextG_exhausted_fm step q ((stepState step)^[n] it') s₂ m hn
    rw [this, Function.iterate_succ_apply']
    rfl

/-- Witness for the amended C3 at a concrete fused source: the
always-`None` source.  The first pull signals end-of-sequence leaving
source state 1, and the following pull (n = 0) signals end-of-sequence
again. -/
theorem c3_exhaustion_permanent_fused_witness :
    FilterWith.nextG fusedNoneStep alwaysTrue (0 + 1)
      ((stepState fusedNoneStep)^[0] 1) () =
      some (none, (stepState fusedNoneStep)^[0 + 1] 1, ()) ∧
    FilterMapWith.nextG fusedNoneStep (fun (s : Unit) (x : Nat) => (some x, s))
      (0 + 1) ((stepState fusedNoneStep)^[0] 1) () =
      some (none, (stepState fusedNoneStep)^[0 + 1] 1, ()) :=
  ⟨(c3_exhaustion_permanent_fused Nat Nat Nat Unit fusedNoneStep alwaysTrue
      (fun (s : Unit) (x : Nat) => (some x, s)) (fun it h => rfl)).1
      1 0 () 1 () (by decide) 0 0 (),
    (c3_exhaustion_permanent_fused Nat Nat Nat Unit fusedNoneStep alwaysTrue
      (fun (s : Unit) (x : Nat) => (some x, s)) (fun it h => rfl)).2
      1 0 () 1 () (by decide) 0 0 ()⟩

theorem FilterWith.applyCalls_erase (szI : List α → Nat × Option Nat) :
    ∀ (t : List MCall) (f : FilterWith α S),
      (FilterWith.applyCalls szI t f).1 =
        (FilterWith.applyCalls szI (t.filter isPull) f).1 ∧
      (FilterWith.applyCalls szI t f).2.2 =
        (FilterWith.applyCalls szI (t.filter isPull) f).2.2 := by
  intro t
  induction t with
  | nil => intro f; exact ⟨rfl, rfl⟩
  | cons c t ih =>
    intro f
    cases c with
    | mnext =>
      rcases hn : FilterWith.next f with ⟨r, f'⟩
      have := ih f'
      simp [FilterWith.applyCalls, List.filter, isPull, hn, this.1, this.2]
    | msize =>
      have := ih f
      simp [FilterWith.applyCalls, List.filter, isPull, this.1, this.2]

theorem FilterMapWith.applyCalls_erase_fm (szI : List α → Nat × Option Nat) :
    ∀ (t : List MCall) (f : FilterMapWith α β S),
      (FilterMapWith.applyCalls szI t f).1 =
        (FilterMapWith.applyCalls szI (t.filter isPull) f).1 ∧
      (FilterMapWith.applyCalls szI t f).2.2 =
        (FilterMapWith.applyCalls szI (t.filter isPull) f).2.2 := by
  intro t
  induction t with
  | nil => intro f; exact ⟨rfl, rfl⟩
  | cons c t ih =>
    intro f
    cases c with
    | mnext =>
      rcases hn : FilterMapWith.next f with ⟨r, f'⟩
      have := ih f'
      simp [FilterMapWith.applyCalls, List.filter, isPull, hn, this.1, this.2]
    | msize =>
      have := ih f
      simp [FilterMapWith.applyCalls, List.filter, isPull, this.1, this.2]

theorem FilterWith.applyCalls_msize_only (szI : List α → Nat × Option Nat) :
    ∀ (t : List MCall) (f : FilterWith α S), (∀ c ∈ t, c = MCall.msize) →
      (FilterWith.applyCalls szI t f).2.1 =
        List.replicate t.length (FilterWith.size_hint szI f) := by
  intro t
  induction t with
  | nil => intro f _; rfl
  | cons c t ih =>
    intro f h
    have hc : c = MCall.msize := h c (by simp)
    subst hc
    have ht : ∀ c ∈ t, c = MCall.msize := fun c hc => h c (by simp [hc])
    simp [FilterWith.applyCalls, ih f ht, List.replicate_succ]

theorem FilterMapWith.applyCalls_msize_only_fm (szI : List α → Nat × Option Nat) :
    ∀ (t : List MCall) (f : FilterMapWith α β S), (∀ c ∈ t, c = MCall.msize) →
      (FilterMapWith.applyCalls szI t f).2.1 =
        List.replicate t.length (FilterMapWith.size_hint szI f) := by
  intro t
  induction t with
  | nil => intro f _; rfl
  | cons c t ih =>
    intro f h
    have hc : c = MCall.msize := h c (by simp)
    subst hc
    have ht : ∀ c ∈ t, c = MCall.msize := fun c hc => h c (by simp [hc])
    simp [FilterMapWith.applyCalls, ih f ht, List.replicate_succ]

/-- C10: a `size_hint` call is observationally inert on both adaptors.
Its result depends only on the source's hint — not on the predicate or the
filter state; erasing all `size_hint` calls from any interleaved call
sequence changes neither the outputs of the pull-next calls nor the final
adaptor; and any block of consecutive `size_hint` calls with no
intervening pull-next returns one and the same value. -/
theorem c10_size_hint_inert (α β S : Type) (szI : List α → Nat × Option Nat)
    (t : List MCall) (f : FilterWith α S) (g : FilterMapWith α β S) :
    ((FilterWith.applyCalls szI t f).1 =
        (FilterWith.applyCalls szI (t.filter isPull) f).1 ∧
      (FilterWith.applyCalls szI t f).2.2 =
        (FilterWith.applyCalls szI (t.filter isPull) f).2.2) ∧
    ((FilterMapWith.applyCalls szI t g).1 =
        (FilterMapWith.applyCalls szI (t.filter isPull) g).1 ∧
      (FilterMapWith.applyCalls szI t g).2.2 =
        (FilterMapWith.applyCalls szI (t.filter isPull) g).2.2) ∧
    ((∀ c ∈ t, c = MCall.msize) →
      (FilterWith.applyCalls szI t f).2.1 =
        List.replicate t.length (FilterWith.size_hint szI f) ∧
      (FilterMapWith.applyCalls szI t g).2.1 =
        List.replicate t.length (FilterMapWith.size_hint szI g)) ∧
    (∀ (p' : S → α → Bool × S) (s' : S),
      FilterWith.size_hint szI ⟨f.iter, p', s'⟩ =
        FilterWith.size_hint szI f) ∧
    (∀ (q' : S → α → Option β × S) (s' : S),
      FilterMapWith.size_hint szI ⟨g.iter, q', s'⟩ =
        FilterMapWith.size_hint szI g) := by
  refine ⟨FilterWith.applyCalls_erase szI t f,
    FilterMapWith.applyCalls_erase_fm szI t g,
    fun h => ⟨FilterWith.applyCalls_msize_only szI t f h,
      FilterMapWith.applyCalls_msize_only_fm szI t g h⟩,
    fun p' s' => ?_, fun q' s' => ?_⟩
  · simp [FilterWith.size_hint]
  · simp [FilterMapWith.size_hint]

/-- Witness for C10 at a concrete hint function, trace and adaptors: two
consecutive `size_hint` calls both report the hint of the initial adaptor,
for the filter and for the filter-map. -/
theorem c10_size_hint_inert_witness :
    (FilterWith.applyCalls (fun l => (l.length, some l.length))
        [MCall.msize, MCall.msize]
        (filter_with ([0, 1, 3, 2, 8, 14] : List Int) 0 sumLtPred)).2.1 =
      List.replicate 2 (FilterWith.size_hint (fun l => (l.length, some l.length))
        (filter_with ([0, 1, 3, 2, 8, 14] : List Int) 0 sumLtPred)) ∧
    (FilterMapWith.applyCalls (fun l => (l.length, some l.length))
        [MCall.msize, MCall.msize]
        (filter_map_with ([0, 1, 2, 3, 4, 5] : List Int) (0 : Int)
          (fun s x => (some (x + s), s)))).2.1 =
      List.replicate 2 (FilterMapWith.size_hint
        (fun l => (l.length, some l.length))
        (filter_map_with ([0, 1, 2, 3, 4, 5] : List Int) (0 : Int)
          (fun s x => (some (x + s), s)))) :=
  (c10_size_hint_inert Int Int Int (fun l => (l.length, some l.length))
    [MCall.msize, MCall.msize]
    (filter_with [0, 1, 3, 2, 8, 14] 0 sumLtPred)
    (filter_map_with ([0, 1, 2, 3, 4, 5] : List Int) (0 : Int)
      (fun s x => (some (x + s), s)))
    |>.2.2.1 (by decide))
